import Mathlib

/-!
A shallow embedding of `src/releaser.py` (the releaser tool): the semantic
version grammar (`semver_re`, `SemanticVersion`), the conventional commit
classifier (`semantic_re`, `ConventionalCommit`), the changelog builder
(`find_tag_by_name`, `last_tag`, `iter_commits_to`, `change_log`), the
renderer (`render_basic`) and the release computation (`release`), together
with theorems about them.

Python strings are modelled as `List Char`; Python ints as `Nat` (the used
values are non-negative and Python ints do not overflow); functions that can
raise are modelled with `Option`.
-/

namespace Releaser

/-- Python strings are modelled as lists of characters. -/
abbrev Chars := List Char

/-- The first code points of the runs of ten Unicode decimal digits
(category Nd, Unicode 14, the data Python 3.11 ships): every Nd character
sits in exactly one run of ten consecutive code points with decimal values
zero to nine, so base plus value gives the code point. -/
def ndBases : List Nat :=
  [48, 1632, 1776, 1984, 2406, 2534, 2662, 2790, 2918, 3046,
    3174, 3302, 3430, 3558, 3664, 3792, 3872, 4160, 4240, 6112,
    6160, 6470, 6608, 6784, 6800, 6992, 7088, 7232, 7248, 42528,
    43216, 43264, 43472, 43504, 43600, 44016, 65296, 66720, 68912, 69734,
    69872, 69942, 70096, 70384, 70736, 70864, 71248, 71360, 71472, 71904,
    72016, 72784, 73040, 73120, 92768, 92864, 93008, 120782, 120792, 120802,
    120812, 120822, 123200, 123632, 125264, 130032]

/-- The digit class of the str patterns compiled without re.ASCII: any
Unicode decimal digit (category Nd), not only 0-9. -/
def isDigitCh (c : Char) : Bool :=
  ndBases.any (fun b => decide (b ≤ c.toNat ∧ c.toNat < b + 10))

/-- The literal ASCII digit range 0-9, as written in the explicit class of
the build-metadata and prerelease identifier tails. -/
def isAsciiDigitCh (c : Char) : Bool := decide (48 ≤ c.toNat ∧ c.toNat ≤ 57)

/-- The literal ASCII range 1-9, as written in the numeric-component
alternation. -/
def isNonzeroDigitCh (c : Char) : Bool := decide (49 ≤ c.toNat ∧ c.toNat ≤ 57)

/-- ASCII letters, as matched by the explicit regex ranges a-z and A-Z. -/
def isAlphaCh (c : Char) : Bool :=
  decide ((65 ≤ c.toNat ∧ c.toNat ≤ 90) ∨ (97 ≤ c.toNat ∧ c.toNat ≤ 122))

/-- The explicit ASCII identifier class of `semver_re`: ASCII digits,
letters and hyphen. -/
def isAsciiIdentCh (c : Char) : Bool := isAsciiDigitCh c || isAlphaCh c || decide (c = '-')

/-- Every character that can occur in a prerelease identifier: a Unicode
digit (from the digit-class stars), an ASCII letter or a hyphen. -/
def isIdentCh (c : Char) : Bool := isDigitCh c || isAlphaCh c || decide (c = '-')

/-- Word characters for the scope group. The digit part is the full Unicode
digit class; the letter part is restricted to ASCII (Python also matches
other Unicode letters, marks and connectors, so this under-approximates the
set of accepted scopes; the theorems below quantify over accepted messages
and do not depend on the exact extent of this class). -/
def isWordCh (c : Char) : Bool := isDigitCh c || isAlphaCh c || decide (c = '_')

/-- Decimal value of a Unicode digit character, as Python int() uses when
converting a captured digit string: the offset inside its run of ten. -/
def digitVal (c : Char) : Nat :=
  match ndBases.find? (fun b => decide (b ≤ c.toNat ∧ c.toNat < b + 10)) with
  | some b => c.toNat - b
  | none => 0

/-- Conversion of a digit string to a number, as Python int() does on the
captured groups (accepting any Unicode decimal digit). -/
def charsToNat (cs : Chars) : Nat := cs.foldl (fun a c => 10 * a + digitVal c) 0

/-- The digit character of a value below ten. -/
def digitCh (n : Nat) : Char :=
  match n with
  | 0 => '0' | 1 => '1' | 2 => '2' | 3 => '3' | 4 => '4'
  | 5 => '5' | 6 => '6' | 7 => '7' | 8 => '8' | _ => '9'

/-- Decimal rendering, fuel-driven so that it reduces in the kernel. -/
def natToCharsAux : Nat → Nat → Chars
  | 0, _ => []
  | fuel + 1, n =>
    if n < 10 then [digitCh n] else natToCharsAux fuel (n / 10) ++ [digitCh (n % 10)]

/-- Decimal rendering of a number, as a Python f-string does with an int. -/
def natToChars (n : Nat) : Chars := natToCharsAux (n + 1) n

/-- The `SemanticVersion` record of the source: three numeric components and
the two optional trailing fields (regex groups 4 and 5, `None` when absent). -/
structure SemanticVersion where
  major : Nat
  minor : Nat
  patch : Nat
  prerelease : Option Chars
  build_metadata : Option Chars
deriving DecidableEq

/-- The second alternative of the numeric component and prerelease
identifier: an ASCII nonzero digit followed by any Unicode digits. -/
def numRunHead (ds : Chars) : Bool :=
  match ds with
  | h :: t => isNonzeroDigitCh h && t.all isDigitCh
  | [] => false

/-- Acceptance of a maximal digit run as one numeric component of
`semver_re`: the alternation is the literal 0 or an ASCII 1-9 followed by
any Unicode digits, so the run must be exactly the digit zero or headed by
an ASCII nonzero digit (an empty run, a longer run headed by 0, or a run
headed by a non-ASCII digit all fail). -/
def numRunOk (ds : Chars) : Bool := decide (ds = ['0']) || numRunHead ds

/-- One numeric component of `semver_re`: the maximal run of Unicode digits,
accepted per `numRunOk`. Returns the matched digits and the remaining
input. -/
def numberToken (s : Chars) : Option (Chars × Chars) :=
  if numRunOk (s.takeWhile isDigitCh) then
    some (s.takeWhile isDigitCh, s.dropWhile isDigitCh)
  else none

/-- Characters that can occur inside the prerelease or build-metadata section
of `semver_re`: identifier characters and the dot separator. -/
def isPreRunCh (c : Char) : Bool := isIdentCh c || decide (c = '.')

/-- Split at every dot, as the dot-separated identifier structure of
`semver_re` does. `splitDot [] = [[]]`. -/
def splitDot : Chars → List Chars
  | [] => [[]]
  | c :: t =>
    if c = '.' then [] :: splitDot t
    else
      match splitDot t with
      | h :: r => (c :: h) :: r
      | [] => [[c]]

/-- The third alternative of a prerelease identifier, applied to the part of
the identifier after its maximal digit prefix: one ASCII letter or hyphen,
then ASCII identifier characters to the end. -/
def preIdTail (q : Chars) : Bool :=
  match q with
  | c :: rest => (isAlphaCh c || decide (c = '-')) && rest.all isAsciiIdentCh
  | [] => false

/-- One prerelease identifier of `semver_re`, one Bool test per regex
alternative: the literal 0; an ASCII 1-9 followed by Unicode digits; or
Unicode digits, then one ASCII letter or hyphen, then ASCII identifier
characters (so a non-ASCII digit may only occur before the first letter or
hyphen). -/
def preIdOk (p : Chars) : Bool :=
  decide (p = ['0']) || numRunHead p || preIdTail (p.dropWhile isDigitCh)

/-- One build-metadata identifier of `semver_re`: nonempty, over the
explicit ASCII class only (leading zeros allowed). -/
def buildIdOk (p : Chars) : Bool := !p.isEmpty && p.all isAsciiIdentCh

/-- The prerelease section after the hyphen: the maximal run of identifier
and dot characters, accepted when every dot-separated piece is a valid
prerelease identifier. Returns the captured group and the remaining input. -/
def parsePre (s : Chars) : Option (Chars × Chars) :=
  if (splitDot (s.takeWhile isPreRunCh)).all preIdOk then
    some (s.takeWhile isPreRunCh, s.dropWhile isPreRunCh)
  else none

/-- The build-metadata section after the plus sign, analogous to `parsePre`. -/
def parseBuild (s : Chars) : Option (Chars × Chars) :=
  if (splitDot (s.takeWhile isPreRunCh)).all buildIdOk then
    some (s.takeWhile isPreRunCh, s.dropWhile isPreRunCh)
  else none

/-- Python regex end anchor: the dollar of `semver_re` (no MULTILINE flag)
matches at the end of the input or just before one final newline. -/
def endOk (s : Chars) : Bool := decide (s = [] ∨ s = ['\n'])

/-- Builds the record the way `SemanticVersion.parse` stores the groups:
`int` of the three numeric captures, prerelease and build metadata as
captured. -/
def mkVer (M N P : Chars) (pre bd : Option Chars) : SemanticVersion :=
  ⟨charsToNat M, charsToNat N, charsToNat P, pre, bd⟩

/-- The part of `semver_re` after the third numeric component: an optional
hyphen-prefixed prerelease, an optional plus-prefixed build metadata, then
the end anchor. -/
def parseTail (M N P : Chars) (r : Chars) : Option SemanticVersion :=
  match r with
  | '-' :: r2 =>
    match parsePre r2 with
    | none => none
    | some (run, r3) =>
      match r3 with
      | '+' :: r4 =>
        match parseBuild r4 with
        | none => none
        | some (b, r5) => if endOk r5 then some (mkVer M N P (some run) (some b)) else none
      | _ => if endOk r3 then some (mkVer M N P (some run) none) else none
  | '+' :: r2 =>
    match parseBuild r2 with
    | none => none
    | some (b, r3) => if endOk r3 then some (mkVer M N P none (some b)) else none
  | _ => if endOk r then some (mkVer M N P none none) else none

/-- `SemanticVersion.parse`: match the whole input against `semver_re`
(major dot minor dot patch, optional prerelease, optional build metadata,
anchored at both ends) and store the captured groups; `none` models the
ValueError raised on a failed match. -/
def SemanticVersion.parse (s : Chars) : Option SemanticVersion :=
  match numberToken s with
  | none => none
  | some (M, r1) =>
    match r1 with
    | '.' :: r2 =>
      match numberToken r2 with
      | none => none
      | some (N, r3) =>
        match r3 with
        | '.' :: r4 =>
          match numberToken r4 with
          | none => none
          | some (P, r5) => parseTail M N P r5
        | _ => none
    | _ => none

/-- The `__str__` method of `SemanticVersion`: the three numeric components
dot-separated, then the prerelease after a hyphen and the build metadata
after a plus sign, each only when present. -/
def SemanticVersion.toStr (v : SemanticVersion) : Chars :=
  natToChars v.major ++ '.' :: natToChars v.minor ++ '.' :: natToChars v.patch
    ++ (match v.prerelease with | some p => '-' :: p | none => [])
    ++ (match v.build_metadata with | some b => '+' :: b | none => [])

/-- The release-type directive of the command line: major, minor or patch. -/
inductive ReleaseType
  | major
  | minor
  | patch
deriving DecidableEq

/-- The version bump performed by the match statement of `release()`: it
updates only the numeric components; the prerelease and build-metadata
fields are left untouched. -/
def bump (v : SemanticVersion) : ReleaseType → SemanticVersion
  | .major => { v with major := v.major + 1, minor := 0, patch := 0 }
  | .minor => { v with minor := v.minor + 1, patch := 0 }
  | .patch => { v with patch := v.patch + 1 }

/-- The `ConventionalCommit` record of the source: the captured category
token, the captured scope group (always a string, possibly empty) and the
normalized description. -/
structure ConventionalCommit where
  type : Chars
  scope : Chars
  description : Chars
deriving DecidableEq

/-- The leading alternation of `semantic_re`: one of the literal category
tokens feat, fix, refactor, build at the start of the message (no two of
them can match the same message, so first-match order is immaterial). -/
def typeToken (s : Chars) : Option (Chars × Chars) :=
  if s.take 4 = "feat".data then some ("feat".data, s.drop 4)
  else if s.take 3 = "fix".data then some ("fix".data, s.drop 3)
  else if s.take 8 = "refactor".data then some ("refactor".data, s.drop 8)
  else if s.take 5 = "build".data then some ("build".data, s.drop 5)
  else none

/-- The middle of the scope group of `semantic_re` followed by the literal
colon: a lazy run of word characters, then an optional closing parenthesis,
then the colon. The lazy run stops at the first position where the rest of
the pattern matches; a closing parenthesis is preferred over the empty
option when both lead to the colon. Returns the consumed scope characters
and the input after the colon. -/
def wordColon : Chars → Option (Chars × Chars)
  | ')' :: ':' :: r => some ([')'], r)
  | ':' :: r => some ([], r)
  | c :: r => if isWordCh c then (wordColon r).map (fun p => (c :: p.1, p.2)) else none
  | [] => none

/-- The full scope group of `semantic_re` followed by the colon: an optional
opening parenthesis, then `wordColon`. When the input starts with an opening
parenthesis the branch without it always fails (the parenthesis is not a
word character and not the colon), so taking the parenthesis first is the
whole behaviour. The captured scope group includes any parentheses it
consumed. -/
def scopeColon (t : Chars) : Option (Chars × Chars) :=
  match t with
  | '(' :: r => (wordColon r).map (fun p => ('(' :: p.1, p.2))
  | _ => wordColon t

/-- The description capture of `semantic_re`: a lazy dot-all run up to the
end anchor, which (without MULTILINE) matches at the end of the input or
just before one final newline; lazy matching therefore leaves exactly one
final newline out of the capture. -/
def rawCapture (r : Chars) : Chars :=
  if r.getLast? = some '\n' then r.dropLast else r

/-- The characters removed by the strip call of `ConventionalCommit.parse`:
space and newline. -/
def stripCh (c : Char) : Bool := decide (c = ' ' ∨ c = '\n')

/-- Python strip with a character set: drop the given characters from both
ends. -/
def pyStrip (p : Char → Bool) (cs : Chars) : Chars :=
  ((cs.dropWhile p).reverse.dropWhile p).reverse

/-- Python replace of the newline character by a space: every newline is
replaced by exactly one space. -/
def replaceNl (cs : Chars) : Chars := cs.map (fun c => if c = '\n' then ' ' else c)

/-- The three captured groups of `semantic_re` on a message: category token,
scope group and raw description capture; `none` models a failed match. -/
def captureParts (m : Chars) : Option (Chars × Chars × Chars) :=
  match typeToken m with
  | none => none
  | some (ty, t) =>
    match scopeColon t with
    | none => none
    | some (sc, r) => some (ty, sc, rawCapture r)

/-- `ConventionalCommit.parse` (the classifier): match `semantic_re` and
store the groups, with the description stripped of surrounding spaces and
newlines and its remaining newlines each replaced by one space; `none`
models the None returned on a failed match. -/
def ConventionalCommit.parse (m : Chars) : Option ConventionalCommit :=
  match captureParts m with
  | none => none
  | some (ty, sc, d) => some ⟨ty, sc, replaceNl (pyStrip stripCh d)⟩

/-- The `__str__` method of `ConventionalCommit`: the category, the scope
wrapped in parentheses when it is non-empty, a colon, a space and the
description. -/
def ConventionalCommit.toStr (c : ConventionalCommit) : Chars :=
  c.type ++ (if c.scope ≠ [] then '(' :: (c.scope ++ [')']) else [])
    ++ ':' :: ' ' :: c.description

/-- A tag of the repository as the changelog builder consumes it: its name
and the hexsha of its target commit. -/
structure Tag where
  name : Chars
  sha : Chars
deriving DecidableEq

/-- A commit of the stream as the changelog builder consumes it: its hexsha
and its message. Streams are ordered newest first, as `repo.iter_commits`
yields them. -/
structure RawCommit where
  hexsha : Chars
  message : Chars
deriving DecidableEq

/-- `find_tag_by_name`: the first tag whose name is the given name or the
given name prefixed with the letter v, scanning the tag list in the
collaborator order. -/
def find_tag_by_name (tags : List Tag) (name : Chars) : Option Tag :=
  tags.find? (fun r => decide (r.name = name ∨ r.name = 'v' :: name))

/-- `last_tag`: `repo.tags.pop()` returns the last tag of the collaborator
list; `none` models the IndexError raised when the list is empty. -/
def last_tag (tags : List Tag) : Option Tag := tags.getLast?

/-- `iter_commits_to`: yield commits from the newest until one whose hexsha
equals the given sha is reached; that commit is excluded and the walk stops
there, so later commits are never consumed. -/
def iter_commits_to (sha : Chars) : List RawCommit → List RawCommit
  | [] => []
  | c :: t => if c.hexsha = sha then [] else c :: iter_commits_to sha t

/-- The comparison key of the sort in `change_log` is the category string;
Python compares strings lexicographically by code point. -/
def strLe : Chars → Chars → Bool
  | [], _ => true
  | _ :: _, [] => false
  | x :: xs, y :: ys => if x = y then strLe xs ys else decide (x.toNat < y.toNat)

/-- `sorted` key insertion: place the element before the first one whose key
is not smaller. Inserting from the right end of the list, this reproduces a
stable sort, which is what Python sorted guarantees. -/
def orderedInsert (a : ConventionalCommit) : List ConventionalCommit → List ConventionalCommit
  | [] => [a]
  | b :: l => if strLe a.type b.type then a :: b :: l else b :: orderedInsert a l

/-- `sorted(ccs, key=lambda x: x.type)`: a stable sort by category string. -/
def sortByType : List ConventionalCommit → List ConventionalCommit
  | [] => []
  | a :: l => orderedInsert a (sortByType l)

/-- One step of consecutive grouping: prepend a commit to the group list of
the commits after it, merging it into the first group when the key matches. -/
def addToGroups (a : ConventionalCommit) :
    List (Chars × List ConventionalCommit) → List (Chars × List ConventionalCommit)
  | [] => [(a.type, [a])]
  | (k, g) :: r =>
    if a.type = k then (k, a :: g) :: r else (a.type, [a]) :: (k, g) :: r

/-- `itertools.groupby` over the sorted list: consecutive runs of equal keys
become one group each. -/
def groupby : List ConventionalCommit → List (Chars × List ConventionalCommit)
  | [] => []
  | a :: t => addToGroups a (groupby t)

/-- The classification and grouping part of `change_log` on a list of
in-scope commits: classify every message, discard non-matches, sort the
matches by category and group consecutive equal categories. -/
def buildGroups (commits : List RawCommit) : List (Chars × List ConventionalCommit) :=
  groupby (sortByType (commits.filterMap (fun c => ConventionalCommit.parse c.message)))

/-- `change_log`: resolve the boundary tag (the tag named like the current
version, else the last tag of the collaborator list), then classify and
group the commits above the boundary. `none` models the IndexError that
`repo.tags.pop()` raises when no tag matches and the tag list is empty; the
None-boundary branch of the source (`init_sha = ... if r is not None else
None`) is unreachable because `last_tag` either returns a tag or raises. -/
def change_log (tags : List Tag) (commits : List RawCommit) (cur_ver : SemanticVersion) :
    Option (List (Chars × List ConventionalCommit)) :=
  match find_tag_by_name tags cur_ver.toStr with
  | some r => some (buildGroups (iter_commits_to r.sha commits))
  | none =>
    match last_tag tags with
    | some r => some (buildGroups (iter_commits_to r.sha commits))
    | none => none

/-- `render_basic`: the document header with the version, then one section
per group: a heading with the category, a blank line, one line per commit
holding only its description, and a blank line after the section. -/
def render_basic (ver : SemanticVersion) (m : List (Chars × List ConventionalCommit)) : Chars :=
  "# 版本更新记录 ".data ++ ver.toStr ++ " \n\n".data ++
    (m.map (fun g =>
      "## ".data ++ g.1 ++ " \n\n".data ++
        List.intercalate "\n".data (g.2.map (fun c => "-. ".data ++ c.description)) ++
        "\n\n".data)).flatten

/-- The computation performed by `release()` up to its outputs (the version
file read and the changelog file write are the out-of-scope collaborators):
parse the current version, build the changelog against the current version,
bump the version in place, and render the document with the bumped version
and the already-built changelog. `none` models the exceptions (version parse
failure, or the empty-tag-list IndexError inside `change_log`). -/
def release (versionText : Chars) (rt : ReleaseType) (tags : List Tag)
    (commits : List RawCommit) : Option (SemanticVersion × Chars) :=
  match SemanticVersion.parse versionText with
  | none => none
  | some cur =>
    match change_log tags commits cur with
    | none => none
    | some raw =>
      let v := bump cur rt
      some (v, render_basic v raw)

/-! ## The semver core grammar, stated from the spec

For the refinement claims about `SemanticVersion.parse`, the grammar of
section 4.1 of the spec is stated a second time, declaratively: a version is
an anchored decomposition into dot-separated numeric components, an optional
hyphen-prefixed prerelease of dot-separated identifiers and an optional
plus-prefixed build metadata of dot-separated identifiers. -/

/-- A numeric component, stated as the two grammar alternatives: the literal
0, or an ASCII nonzero digit followed by any (Unicode) digits. -/
def NumStr (M : Chars) : Prop :=
  M = ['0'] ∨ ∃ h t, M = h :: t ∧ isNonzeroDigitCh h = true ∧ ∀ c ∈ t, isDigitCh c = true

/-- A prerelease identifier, stated as the three grammar alternatives: the
literal 0; an ASCII nonzero digit followed by (Unicode) digits; or (Unicode)
digits, then an ASCII letter or hyphen, then ASCII identifier characters. -/
def PreId (p : Chars) : Prop :=
  p = ['0'] ∨
    (∃ h t, p = h :: t ∧ isNonzeroDigitCh h = true ∧ ∀ c ∈ t, isDigitCh c = true) ∨
    (∃ ds c rest, p = ds ++ c :: rest ∧ (∀ d ∈ ds, isDigitCh d = true) ∧
      (isAlphaCh c = true ∨ c = '-') ∧ ∀ x ∈ rest, isAsciiIdentCh x = true)

/-- A build-metadata identifier: nonempty, over the explicit ASCII class of
digits, letters and hyphens. -/
def BuildId (p : Chars) : Prop := p ≠ [] ∧ ∀ c ∈ p, isAsciiIdentCh c = true

/-- Dot-separated concatenation of identifiers. -/
def joinDots : List Chars → Chars
  | [] => []
  | [i] => i
  | i :: rest => i ++ '.' :: joinDots rest

/-- A prerelease section: a nonempty dot-separated sequence of prerelease
identifiers. -/
def PreSection (r : Chars) : Prop :=
  ∃ ids : List Chars, ids ≠ [] ∧ (∀ i ∈ ids, PreId i) ∧ r = joinDots ids

/-- A build-metadata section: a nonempty dot-separated sequence of
build-metadata identifiers. -/
def BuildSection (r : Chars) : Prop :=
  ∃ ids : List Chars, ids ≠ [] ∧ (∀ i ∈ ids, BuildId i) ∧ r = joinDots ids

/-- The whole semver 2.0 core grammar, anchored: the spec-side statement of
what strings a parse should accept. -/
def CoreMatch (s : Chars) : Prop :=
  ∃ M N P pr bd, NumStr M ∧ NumStr N ∧ NumStr P ∧
    (pr = [] ∨ ∃ q, PreSection q ∧ pr = '-' :: q) ∧
    (bd = [] ∨ ∃ q, BuildSection q ∧ bd = '+' :: q) ∧
    s = M ++ '.' :: (N ++ '.' :: (P ++ (pr ++ bd)))

/-- Relation between the stored prerelease field and the matched prerelease
characters of the input. -/
def PrePart (pre : Option Chars) (pr : Chars) : Prop :=
  (pre = none ∧ pr = []) ∨ ∃ q, PreSection q ∧ pre = some q ∧ pr = '-' :: q

/-- Relation between the stored build-metadata field and the matched
build-metadata characters of the input. -/
def BuildPart (bd : Option Chars) (bdc : Chars) : Prop :=
  (bd = none ∧ bdc = []) ∨ ∃ q, BuildSection q ∧ bd = some q ∧ bdc = '+' :: q

/-! ## Character and digit lemmas -/

theorem char_toNat_inj {c d : Char} (h : c.toNat = d.toNat) : c = d :=
  Char.eq_of_val_eq (UInt32.ext h)

theorem isDigitCh_of_ascii {c : Char} (h : isAsciiDigitCh c = true) : isDigitCh c = true := by
  simp only [isAsciiDigitCh, decide_eq_true_eq] at h
  simp only [isDigitCh, ndBases, List.any_cons, List.any_nil, Bool.or_eq_true,
    decide_eq_true_eq]
  left
  omega

theorem isDigitCh_of_nonzero {c : Char} (h : isNonzeroDigitCh c = true) :
    isDigitCh c = true := by
  apply isDigitCh_of_ascii
  simp only [isNonzeroDigitCh, decide_eq_true_eq] at h
  simp only [isAsciiDigitCh, decide_eq_true_eq]
  omega

theorem digitVal_ascii {c : Char} (h : isAsciiDigitCh c = true) :
    digitVal c = c.toNat - 48 := by
  simp only [isAsciiDigitCh, decide_eq_true_eq] at h
  have hfind : ndBases.find? (fun b => decide (b ≤ c.toNat ∧ c.toNat < b + 10)) = some 48 := by
    unfold ndBases
    exact List.find?_cons_of_pos _ (by simp only [decide_eq_true_eq]; omega)
  unfold digitVal
  rw [hfind]

theorem digitVal_lt_ten {c : Char} (h : isAsciiDigitCh c = true) : digitVal c < 10 := by
  rw [digitVal_ascii h]
  simp only [isAsciiDigitCh, decide_eq_true_eq] at h
  omega

theorem toNat_digitCh {n : Nat} (h : n < 10) : (digitCh n).toNat = 48 + n := by
  interval_cases n <;> rfl

theorem digitCh_digitVal {c : Char} (h : isAsciiDigitCh c = true) :
    digitCh (digitVal c) = c := by
  rw [digitVal_ascii h]
  simp only [isAsciiDigitCh, decide_eq_true_eq] at h
  apply char_toNat_inj
  rw [toNat_digitCh (by omega)]
  omega

/-! ## Decimal round-trip lemmas -/

theorem natToCharsAux_fuel (n : Nat) : ∀ f g : Nat, n < f → n < g →
    natToCharsAux f n = natToCharsAux g n := by
  induction n using Nat.strong_induction_on with
  | _ n ih =>
    intro f g hf hg
    match f, g with
    | f + 1, g + 1 =>
      simp only [natToCharsAux]
      by_cases h : n < 10
      · simp [h]
      · have hn : 0 < n := by omega
        have hdiv : n / 10 < n := Nat.div_lt_self hn (by omega)
        simp only [h, if_false]
        rw [ih (n / 10) hdiv f g (by omega) (by omega)]

theorem natToChars_lt {n : Nat} (h : n < 10) : natToChars n = [digitCh n] := by
  simp [natToChars, natToCharsAux, h]

theorem natToChars_ge {n : Nat} (h : 10 ≤ n) :
    natToChars n = natToChars (n / 10) ++ [digitCh (n % 10)] := by
  have hdiv : n / 10 < n := Nat.div_lt_self (by omega) (by omega)
  simp only [natToChars, natToCharsAux, Nat.not_lt.mpr h, if_false]
  rw [natToCharsAux_fuel (n / 10) n (n / 10 + 1) (by omega) (by omega)]
  simp only [natToCharsAux]

theorem charsToNat_append (l : Chars) (c : Char) :
    charsToNat (l ++ [c]) = 10 * charsToNat l + digitVal c := by
  simp [charsToNat, List.foldl_append]

theorem foldl_step_ge (xs : Chars) : ∀ a : Nat,
    a ≤ List.foldl (fun a c => 10 * a + digitVal c) a xs := by
  induction xs with
  | nil => intro a; exact Nat.le_refl a
  | cons x xs ih =>
    intro a
    have h1 : a ≤ 10 * a + digitVal x := by omega
    exact Nat.le_trans h1 (ih (10 * a + digitVal x))

theorem charsToNat_head_pos {x : Char} (xs : Chars) (hd : isAsciiDigitCh x = true)
    (hne : x ≠ '0') : 1 ≤ charsToNat (x :: xs) := by
  have hx : 1 ≤ digitVal x := by
    rw [digitVal_ascii hd]
    simp only [isAsciiDigitCh, decide_eq_true_eq] at hd
    have : x.toNat ≠ 48 := fun hc => hne (char_toNat_inj hc)
    omega
  have : charsToNat (x :: xs) = List.foldl (fun a c => 10 * a + digitVal c) (digitVal x) xs := by
    simp [charsToNat]
  rw [this]
  exact Nat.le_trans hx (foldl_step_ge xs (digitVal x))

theorem natToChars_charsToNat : ∀ l : Chars, l ≠ [] →
    (∀ c ∈ l, isAsciiDigitCh c = true) → (l.head? = some '0' → l = ['0']) →
    natToChars (charsToNat l) = l := by
  intro l
  induction l using List.reverseRecOn with
  | nil => intro h; exact absurd rfl h
  | append_singleton l c ih =>
    intro _ hdig hlead
    by_cases hl : l = []
    · subst hl
      have hc : isAsciiDigitCh c = true := hdig c (by simp)
      have : charsToNat [c] = digitVal c := by simp [charsToNat]
      rw [show ([] : Chars) ++ [c] = [c] from rfl, this,
        natToChars_lt (digitVal_lt_ten hc), digitCh_digitVal hc]
    · obtain ⟨x, xs, hx⟩ := List.exists_cons_of_ne_nil hl
      have hdigl : ∀ a ∈ l, isAsciiDigitCh a = true := fun a ha => hdig a (by simp [ha])
      have hcdig : isAsciiDigitCh c = true := hdig c (by simp)
      have hheadx : (l ++ [c]).head? = some x := by simp [hx]
      have hxne : x ≠ '0' := by
        intro hx0
        subst hx0
        have := hlead (by rw [hheadx])
        rw [hx] at this
        simp at this
      have hpos : 1 ≤ charsToNat l := by
        rw [hx]
        exact charsToNat_head_pos xs (hdigl x (by simp [hx])) hxne
      have hvlt : digitVal c < 10 := digitVal_lt_ten hcdig
      rw [charsToNat_append]
      have hge : 10 ≤ 10 * charsToNat l + digitVal c := by omega
      rw [natToChars_ge hge]
      have hdiv : (10 * charsToNat l + digitVal c) / 10 = charsToNat l := by omega
      have hmod : (10 * charsToNat l + digitVal c) % 10 = digitVal c := by omega
      rw [hdiv, hmod, digitCh_digitVal hcdig]
      rw [ih hl hdigl ?_]
      intro hh
      have hxx : x = '0' := by
        rw [hx] at hh
        simpa using hh
      exact absurd hxx hxne

/-! ## List helper lemmas -/

theorem takeWhile_nil_of_head {p : Char → Bool} {r : Chars}
    (h : ∀ c, r.head? = some c → p c = false) : r.takeWhile p = [] := by
  cases r with
  | nil => rfl
  | cons x t => simp [List.takeWhile_cons, h x rfl]

theorem dropWhile_id_of_head {p : Char → Bool} {r : Chars}
    (h : ∀ c, r.head? = some c → p c = false) : r.dropWhile p = r := by
  cases r with
  | nil => rfl
  | cons x t => simp [List.dropWhile_cons, h x rfl]

theorem mem_takeWhile_pred {p : Char → Bool} : ∀ {l : Chars} {x : Char},
    x ∈ l.takeWhile p → p x = true := by
  intro l
  induction l with
  | nil => intro x h; simp [List.takeWhile] at h
  | cons a t ih =>
    intro x h
    rw [List.takeWhile_cons] at h
    by_cases hp : p a
    · simp only [hp, if_true, List.mem_cons] at h
      rcases h with h | h
      · subst h; exact hp
      · exact ih h
    · simp [hp] at h

theorem takeWhile_of_split {p : Char → Bool} {l r : Chars}
    (hl : ∀ c ∈ l, p c = true) (hr : ∀ c, r.head? = some c → p c = false) :
    (l ++ r).takeWhile p = l ∧ (l ++ r).dropWhile p = r := by
  constructor
  · rw [List.takeWhile_append_of_pos hl, takeWhile_nil_of_head hr, List.append_nil]
  · rw [List.dropWhile_append_of_pos hl, dropWhile_id_of_head hr]

/-! ## splitDot and joinDots lemmas -/

theorem splitDot_ne_nil : ∀ r : Chars, splitDot r ≠ [] := by
  intro r
  cases r with
  | nil => simp [splitDot]
  | cons c t =>
    simp only [splitDot]
    by_cases hc : c = '.'
    · simp [hc]
    · simp only [hc, if_false]
      cases splitDot t <;> simp

theorem joinDots_cons_cons (c : Char) (h : Chars) (r : List Chars) :
    joinDots ((c :: h) :: r) = c :: joinDots (h :: r) := by
  cases r <;> rfl

theorem joinDots_splitDot : ∀ r : Chars, joinDots (splitDot r) = r := by
  intro r
  induction r with
  | nil => rfl
  | cons c t ih =>
    simp only [splitDot]
    by_cases hc : c = '.'
    · subst hc
      rw [if_pos rfl]
      cases hst : splitDot t with
      | nil => exact absurd hst (splitDot_ne_nil t)
      | cons h r =>
        rw [hst] at ih
        calc joinDots ([] :: h :: r) = '.' :: joinDots (h :: r) := by rfl
        _ = '.' :: t := by rw [ih]
    · rw [if_neg hc]
      cases hst : splitDot t with
      | nil => exact absurd hst (splitDot_ne_nil t)
      | cons h r =>
        rw [hst] at ih
        rw [joinDots_cons_cons, ih]

theorem splitDot_no_dot : ∀ {l : Chars}, (∀ c ∈ l, c ≠ '.') → splitDot l = [l] := by
  intro l
  induction l with
  | nil => intro _; rfl
  | cons c t ih =>
    intro h
    have hc : c ≠ '.' := h c (by simp)
    simp only [splitDot, hc, if_false]
    rw [ih (fun a ha => h a (by simp [ha]))]

theorem splitDot_append_dot {i : Chars} (r : Chars) (hi : ∀ c ∈ i, c ≠ '.') :
    splitDot (i ++ '.' :: r) = i :: splitDot r := by
  induction i with
  | nil => simp [splitDot]
  | cons c t ih =>
    have hc : c ≠ '.' := hi c (by simp)
    simp only [List.cons_append, splitDot, hc, if_false, List.append_eq]
    rw [ih (fun a ha => hi a (by simp [ha]))]

theorem splitDot_joinDots : ∀ {ids : List Chars}, ids ≠ [] →
    (∀ i ∈ ids, ∀ c ∈ i, c ≠ '.') → splitDot (joinDots ids) = ids := by
  intro ids
  induction ids with
  | nil => intro h; exact absurd rfl h
  | cons i rest ih =>
    intro _ hnd
    cases rest with
    | nil => exact splitDot_no_dot (hnd i (by simp))
    | cons j rest2 =>
      have : joinDots (i :: j :: rest2) = i ++ '.' :: joinDots (j :: rest2) := rfl
      rw [this, splitDot_append_dot _ (hnd i (by simp))]
      rw [ih (by simp) (fun a ha => hnd a (by simp [ha]))]

theorem mem_joinDots_pred {q : Char → Bool} (hdot : q '.' = true) :
    ∀ {ids : List Chars}, (∀ i ∈ ids, ∀ c ∈ i, q c = true) →
      ∀ c ∈ joinDots ids, q c = true := by
  intro ids
  induction ids with
  | nil => intro _ c hc; simp [joinDots] at hc
  | cons i rest ih =>
    intro h c hc
    cases rest with
    | nil => exact h i (by simp) c hc
    | cons j rest2 =>
      have : joinDots (i :: j :: rest2) = i ++ '.' :: joinDots (j :: rest2) := rfl
      rw [this] at hc
      rcases List.mem_append.mp hc with hc | hc
      · exact h i (by simp) c hc
      · rcases List.mem_cons.mp hc with hc | hc
        · subst hc; exact hdot
        · exact ih (fun a ha => h a (by simp [ha])) c hc

/-! ## Bool and Prop bridges for the identifier predicates -/

theorem isIdentCh_ne_dot {c : Char} (h : isIdentCh c = true) : c ≠ '.' := by
  intro hc
  subst hc
  exact absurd h (by decide)

theorem isPreRunCh_of_ident {c : Char} (h : isIdentCh c = true) : isPreRunCh c = true := by
  simp [isPreRunCh, h]

theorem bnot_eq_true {b : Bool} : (!b) = true ↔ b = false := by
  cases b <;> simp

theorem not_isEmpty_iff {p : Chars} : (!p.isEmpty) = true ↔ p ≠ [] := by
  cases p <;> simp

theorem alpha_not_digit {c : Char} (h : isAlphaCh c = true) : isDigitCh c = false := by
  simp only [isAlphaCh, decide_eq_true_eq] at h
  rw [Bool.eq_false_iff]
  intro hd
  rw [isDigitCh, List.any_eq_true] at hd
  obtain ⟨b, hb, hcond⟩ := hd
  rw [decide_eq_true_eq] at hcond
  simp only [ndBases, List.mem_cons, List.not_mem_nil, or_false] at hb
  omega

theorem isIdentCh_of_ascii {c : Char} (h : isAsciiIdentCh c = true) : isIdentCh c = true := by
  unfold isAsciiIdentCh at h
  unfold isIdentCh
  rw [Bool.or_eq_true, Bool.or_eq_true] at h ⊢
  rcases h with (h | h) | h
  · exact Or.inl (Or.inl (isDigitCh_of_ascii h))
  · exact Or.inl (Or.inr h)
  · exact Or.inr h

theorem PreId_chars {p : Chars} (h : PreId p) : ∀ c ∈ p, isIdentCh c = true := by
  rcases h with h0 | ⟨x, t, hht, hnz, ht⟩ | ⟨ds, c0, rest, heq, hds, hc0, hrest⟩
  · subst h0
    intro c hc
    simp only [List.mem_singleton] at hc
    subst hc
    decide
  · subst hht
    intro c hc
    rcases List.mem_cons.mp hc with hc | hc
    · subst hc
      simp [isIdentCh, isDigitCh_of_nonzero hnz]
    · simp [isIdentCh, ht c hc]
  · subst heq
    intro c hc
    rcases List.mem_append.mp hc with hc | hc
    · simp [isIdentCh, hds c hc]
    · rcases List.mem_cons.mp hc with hc | hc
      · subst hc
        rcases hc0 with h | h
        · simp [isIdentCh, h]
        · subst h
          decide
      · exact isIdentCh_of_ascii (hrest c hc)

theorem BuildId_chars {p : Chars} (h : BuildId p) : ∀ c ∈ p, isIdentCh c = true :=
  fun c hc => isIdentCh_of_ascii (h.2 c hc)

theorem numRunHead_iff {ds : Chars} : numRunHead ds = true ↔
    ∃ h t, ds = h :: t ∧ isNonzeroDigitCh h = true ∧ ∀ c ∈ t, isDigitCh c = true := by
  cases ds with
  | nil => simp [numRunHead]
  | cons x t =>
    simp only [numRunHead, Bool.and_eq_true, List.all_eq_true]
    constructor
    · rintro ⟨h1, h2⟩
      exact ⟨x, t, rfl, h1, h2⟩
    · rintro ⟨h, t2, heq, h1, h2⟩
      injection heq with e1 e2
      subst e1
      subst e2
      exact ⟨h1, h2⟩

theorem numRunOk_iff {ds : Chars} : numRunOk ds = true ↔ NumStr ds := by
  unfold numRunOk NumStr
  rw [Bool.or_eq_true, decide_eq_true_eq, numRunHead_iff]

theorem preIdOk_iff {p : Chars} : preIdOk p = true ↔ PreId p := by
  unfold preIdOk PreId
  rw [Bool.or_eq_true, Bool.or_eq_true, decide_eq_true_eq, numRunHead_iff]
  constructor
  · rintro ((h | h) | h)
    · exact Or.inl h
    · exact Or.inr (Or.inl h)
    · cases hdw : p.dropWhile isDigitCh with
      | nil =>
        rw [hdw] at h
        simp [preIdTail] at h
      | cons c rest =>
        rw [hdw] at h
        simp only [preIdTail, Bool.and_eq_true, Bool.or_eq_true, List.all_eq_true,
          decide_eq_true_eq] at h
        obtain ⟨hc, hrest⟩ := h
        refine Or.inr (Or.inr ⟨p.takeWhile isDigitCh, c, rest, ?_,
          fun d hd => mem_takeWhile_pred hd, hc, hrest⟩)
        rw [← hdw, List.takeWhile_append_dropWhile]
  · rintro (h | h | ⟨ds, c, rest, heq, hds, hc, hrest⟩)
    · exact Or.inl (Or.inl h)
    · exact Or.inl (Or.inr h)
    · subst heq
      refine Or.inr ?_
      have hcd : isDigitCh c = false := by
        rcases hc with h | h
        · exact alpha_not_digit h
        · subst h
          decide
      have hdw : (ds ++ c :: rest).dropWhile isDigitCh = c :: rest := by
        rw [List.dropWhile_append_of_pos hds, List.dropWhile_cons_of_neg (by rw [hcd]; simp)]
      rw [hdw]
      simp only [preIdTail, Bool.and_eq_true, Bool.or_eq_true, List.all_eq_true,
        decide_eq_true_eq]
      exact ⟨hc, hrest⟩

theorem buildIdOk_iff {p : Chars} : buildIdOk p = true ↔ BuildId p := by
  unfold buildIdOk BuildId
  rw [Bool.and_eq_true]
  rw [not_isEmpty_iff, List.all_eq_true]

/-! ## Soundness and completeness of the component parsers -/

theorem NumStr_digits {M : Chars} (hM : NumStr M) : ∀ c ∈ M, isDigitCh c = true := by
  rcases hM with h0 | ⟨x, t, hht, hnz, ht⟩
  · subst h0
    intro c hc
    simp only [List.mem_singleton] at hc
    subst hc
    decide
  · subst hht
    intro c hc
    rcases List.mem_cons.mp hc with hc | hc
    · subst hc
      exact isDigitCh_of_nonzero hnz
    · exact ht c hc

theorem NumStr_ne_nil {M : Chars} (hM : NumStr M) : M ≠ [] := by
  rcases hM with h0 | ⟨x, t, hht, -, -⟩
  · subst h0
    simp
  · subst hht
    simp

theorem NumStr_head_zero {M : Chars} (hM : NumStr M) (hh : M.head? = some '0') :
    M = ['0'] := by
  rcases hM with h0 | ⟨x, t, hht, hnz, -⟩
  · exact h0
  · subst hht
    simp only [List.head?_cons, Option.some.injEq] at hh
    subst hh
    exact absurd hnz (by decide)

theorem numberToken_sound {s ds rest : Chars} (h : numberToken s = some (ds, rest)) :
    NumStr ds ∧ s = ds ++ rest ∧ (∀ c, rest.head? = some c → isDigitCh c = false) := by
  unfold numberToken at h
  split at h
  · rename_i hok
    simp only [Option.some.injEq, Prod.mk.injEq] at h
    obtain ⟨hds, hrest⟩ := h
    subst hds
    subst hrest
    refine ⟨numRunOk_iff.mp hok, ?_, ?_⟩
    · rw [List.takeWhile_append_dropWhile]
    · intro c hc
      have := List.head?_dropWhile_not isDigitCh s
      rw [hc] at this
      exact this
  · exact absurd h (by simp)

theorem numberToken_complete {M rest : Chars} (hM : NumStr M)
    (hr : ∀ c, rest.head? = some c → isDigitCh c = false) :
    numberToken (M ++ rest) = some (M, rest) := by
  obtain ⟨ht, hd⟩ := takeWhile_of_split (NumStr_digits hM) hr
  unfold numberToken
  rw [ht, hd, if_pos (numRunOk_iff.mpr hM)]

theorem parsePre_sound {s run rest : Chars} (h : parsePre s = some (run, rest)) :
    PreSection run ∧ s = run ++ rest ∧ (∀ c, rest.head? = some c → isPreRunCh c = false) := by
  unfold parsePre at h
  split at h
  · rename_i hall
    simp only [Option.some.injEq, Prod.mk.injEq] at h
    obtain ⟨hrun, hrest⟩ := h
    subst hrun
    subst hrest
    refine ⟨⟨splitDot (s.takeWhile isPreRunCh), splitDot_ne_nil _, ?_, (joinDots_splitDot _).symm⟩,
      (List.takeWhile_append_dropWhile _ _).symm ▸ rfl, ?_⟩
    · intro i hi
      exact preIdOk_iff.mp (List.all_eq_true.mp hall i hi)
    · intro c hc
      have := List.head?_dropWhile_not isPreRunCh s
      rw [hc] at this
      exact this
  · exact absurd h (by simp)

theorem parsePre_complete {r rest : Chars} (hr : PreSection r)
    (hrest : ∀ c, rest.head? = some c → isPreRunCh c = false) :
    parsePre (r ++ rest) = some (r, rest) := by
  obtain ⟨ids, hne, hids, hjoin⟩ := hr
  have hchars : ∀ c ∈ r, isPreRunCh c = true := by
    rw [hjoin]
    exact mem_joinDots_pred (by decide)
      (fun i hi c hc => isPreRunCh_of_ident (PreId_chars (hids i hi) c hc))
  obtain ⟨ht, hd⟩ := takeWhile_of_split hchars hrest
  have hsplit : splitDot r = ids := by
    rw [hjoin]
    exact splitDot_joinDots hne
      (fun i hi c hc => isIdentCh_ne_dot (PreId_chars (hids i hi) c hc))
  unfold parsePre
  rw [ht, hd, hsplit, if_pos (List.all_eq_true.mpr (fun i hi => preIdOk_iff.mpr (hids i hi)))]

theorem parseBuild_sound {s run rest : Chars} (h : parseBuild s = some (run, rest)) :
    BuildSection run ∧ s = run ++ rest ∧ (∀ c, rest.head? = some c → isPreRunCh c = false) := by
  unfold parseBuild at h
  split at h
  · rename_i hall
    simp only [Option.some.injEq, Prod.mk.injEq] at h
    obtain ⟨hrun, hrest⟩ := h
    subst hrun
    subst hrest
    refine ⟨⟨splitDot (s.takeWhile isPreRunCh), splitDot_ne_nil _, ?_, (joinDots_splitDot _).symm⟩,
      (List.takeWhile_append_dropWhile _ _).symm ▸ rfl, ?_⟩
    · intro i hi
      exact buildIdOk_iff.mp (List.all_eq_true.mp hall i hi)
    · intro c hc
      have := List.head?_dropWhile_not isPreRunCh s
      rw [hc] at this
      exact this
  · exact absurd h (by simp)

theorem parseBuild_complete {r rest : Chars} (hr : BuildSection r)
    (hrest : ∀ c, rest.head? = some c → isPreRunCh c = false) :
    parseBuild (r ++ rest) = some (r, rest) := by
  obtain ⟨ids, hne, hids, hjoin⟩ := hr
  have hchars : ∀ c ∈ r, isPreRunCh c = true := by
    rw [hjoin]
    exact mem_joinDots_pred (by decide)
      (fun i hi c hc => isPreRunCh_of_ident (BuildId_chars (hids i hi) c hc))
  obtain ⟨ht, hd⟩ := takeWhile_of_split hchars hrest
  have hsplit : splitDot r = ids := by
    rw [hjoin]
    exact splitDot_joinDots hne
      (fun i hi c hc => isIdentCh_ne_dot (BuildId_chars (hids i hi) c hc))
  unfold parseBuild
  rw [ht, hd, hsplit, if_pos (List.all_eq_true.mpr (fun i hi => buildIdOk_iff.mpr (hids i hi)))]

theorem endOk_iff {s : Chars} : endOk s = true ↔ s = [] ∨ s = ['\n'] := by
  simp [endOk]

theorem endTail_head_not_prerun {tail : Chars} (htail : tail = [] ∨ tail = ['\n']) :
    ∀ c, tail.head? = some c → isPreRunCh c = false := by
  intro c hc
  rcases htail with h | h <;> subst h
  · simp at hc
  · simp only [List.head?_cons, Option.some.injEq] at hc
    subst hc
    decide

theorem bdtail_head_not_prerun {bd : Option Chars} {bdc tail : Chars} (hbd : BuildPart bd bdc)
    (htail : tail = [] ∨ tail = ['\n']) :
    ∀ c, (bdc ++ tail).head? = some c → isPreRunCh c = false := by
  intro c hc
  rcases hbd with ⟨-, h⟩ | ⟨q, -, -, h⟩ <;> subst h
  · rcases htail with h | h <;> subst h
    · simp at hc
    · simp only [List.nil_append, List.head?_cons, Option.some.injEq] at hc
      subst hc
      decide
  · simp only [List.cons_append, List.head?_cons, Option.some.injEq] at hc
    subst hc
    decide

theorem prtail_head_not_digit {pre bd : Option Chars} {pr bdc tail : Chars}
    (hpre : PrePart pre pr) (hbd : BuildPart bd bdc) (htail : tail = [] ∨ tail = ['\n']) :
    ∀ c, (pr ++ (bdc ++ tail)).head? = some c → isDigitCh c = false := by
  intro c hc
  rcases hpre with ⟨-, h⟩ | ⟨q, -, -, h⟩ <;> subst h
  · rw [List.nil_append] at hc
    have := bdtail_head_not_prerun hbd htail c hc
    simp only [isPreRunCh, isIdentCh, Bool.or_eq_false_iff] at this
    exact this.1.1.1
  · simp only [List.cons_append, List.head?_cons, Option.some.injEq] at hc
    subst hc
    decide

theorem parseTail_sound {M N P r : Chars} {v : SemanticVersion}
    (h : parseTail M N P r = some v) :
    ∃ pre bd pr bdc tail, v = mkVer M N P pre bd ∧ PrePart pre pr ∧ BuildPart bd bdc ∧
      (tail = [] ∨ tail = ['\n']) ∧ r = pr ++ (bdc ++ tail) := by
  rw [parseTail.eq_def] at h
  split at h
  · -- r = '-' :: r2
    rename_i r2
    split at h
    · exact absurd h (by simp)
    · rename_i run r3 hpre
      obtain ⟨hsec, hr2, hr3head⟩ := parsePre_sound hpre
      split at h
      · -- r3 = '+' :: r4
        rename_i r4
        split at h
        · exact absurd h (by simp)
        · rename_i b r5 hbuild
          obtain ⟨hbsec, hr4, hr5head⟩ := parseBuild_sound hbuild
          split at h
          · rename_i hend
            simp only [Option.some.injEq] at h
            subst h
            exact ⟨some run, some b, '-' :: run, '+' :: b, r5, rfl,
              Or.inr ⟨run, hsec, rfl, rfl⟩, Or.inr ⟨b, hbsec, rfl, rfl⟩,
              endOk_iff.mp hend, by simp [hr2, hr4]⟩
          · exact absurd h (by simp)
      · -- r3 has no leading plus
        split at h
        · rename_i hend
          simp only [Option.some.injEq] at h
          subst h
          exact ⟨some run, none, '-' :: run, [], r3, rfl,
            Or.inr ⟨run, hsec, rfl, rfl⟩, Or.inl ⟨rfl, rfl⟩,
            endOk_iff.mp hend, by simp [hr2]⟩
        · exact absurd h (by simp)
  · -- r = '+' :: r2
    rename_i r2
    split at h
    · exact absurd h (by simp)
    · rename_i b r3 hbuild
      obtain ⟨hbsec, hr2, hr3head⟩ := parseBuild_sound hbuild
      split at h
      · rename_i hend
        simp only [Option.some.injEq] at h
        subst h
        exact ⟨none, some b, [], '+' :: b, r3, rfl, Or.inl ⟨rfl, rfl⟩,
          Or.inr ⟨b, hbsec, rfl, rfl⟩, endOk_iff.mp hend, by simp [hr2]⟩
      · exact absurd h (by simp)
  · -- r starts with neither hyphen nor plus
    split at h
    · rename_i hend
      simp only [Option.some.injEq] at h
      subst h
      exact ⟨none, none, [], [], r, rfl, Or.inl ⟨rfl, rfl⟩, Or.inl ⟨rfl, rfl⟩,
        endOk_iff.mp hend, by simp⟩
    · exact absurd h (by simp)

theorem parseTail_complete {M N P : Chars} {pre bd : Option Chars} {pr bdc tail : Chars}
    (hpre : PrePart pre pr) (hbd : BuildPart bd bdc) (htail : tail = [] ∨ tail = ['\n']) :
    parseTail M N P (pr ++ (bdc ++ tail)) = some (mkVer M N P pre bd) := by
  have hendOk : endOk tail = true := endOk_iff.mpr htail
  rcases hpre with ⟨hpn, hpr⟩ | ⟨q, hq, hpeq, hpr⟩
  · subst hpn
    subst hpr
    rw [List.nil_append]
    rcases hbd with ⟨hbn, hbc⟩ | ⟨q', hq', hbeq, hbc⟩
    · subst hbn
      subst hbc
      rw [List.nil_append]
      rcases htail with h | h <;> subst h
      · rfl
      · rfl
    · subst hbeq
      subst hbc
      have hb := parseBuild_complete hq' (endTail_head_not_prerun htail)
      rw [List.cons_append, parseTail.eq_def]
      simp only [hb, hendOk, if_true]
  · subst hpeq
    subst hpr
    have hp := parsePre_complete hq (bdtail_head_not_prerun hbd htail)
    rcases hbd with ⟨hbn, hbc⟩ | ⟨q', hq', hbeq, hbc⟩
    · subst hbn
      subst hbc
      rw [List.nil_append] at hp ⊢
      rw [List.cons_append, parseTail.eq_def]
      simp only [hp]
      rcases htail with h | h <;> subst h
      · rfl
      · rfl
    · subst hbeq
      subst hbc
      have hb := parseBuild_complete hq' (endTail_head_not_prerun htail)
      rw [List.cons_append, parseTail.eq_def]
      simp only [List.cons_append] at hp ⊢
      simp only [hp, hb, hendOk, if_true]

theorem parse_sound {s : Chars} {v : SemanticVersion} (h : SemanticVersion.parse s = some v) :
    ∃ M N P pre bd pr bdc tail, NumStr M ∧ NumStr N ∧ NumStr P ∧
      v = mkVer M N P pre bd ∧ PrePart pre pr ∧ BuildPart bd bdc ∧
      (tail = [] ∨ tail = ['\n']) ∧
      s = M ++ '.' :: (N ++ '.' :: (P ++ (pr ++ (bdc ++ tail)))) := by
  rw [SemanticVersion.parse.eq_def] at h
  split at h
  · exact absurd h (by simp)
  · rename_i M r1 h1
    obtain ⟨hM, hs1, hr1head⟩ := numberToken_sound h1
    split at h
    · rename_i r2
      split at h
      · exact absurd h (by simp)
      · rename_i N r3 h2
        obtain ⟨hN, hs2, hr3head⟩ := numberToken_sound h2
        split at h
        · rename_i r4
          split at h
          · exact absurd h (by simp)
          · rename_i P r5 h3
            obtain ⟨hP, hs3, hr5head⟩ := numberToken_sound h3
            obtain ⟨pre, bd, pr, bdc, tail, hv, hpre, hbd, htail, hr5⟩ := parseTail_sound h
            refine ⟨M, N, P, pre, bd, pr, bdc, tail, hM, hN, hP, hv, hpre, hbd, htail, ?_⟩
            rw [hs1, hs2, hs3, hr5]
        · exact absurd h (by simp)
    · exact absurd h (by simp)

theorem parse_complete {M N P : Chars} {pre bd : Option Chars} {pr bdc tail : Chars}
    (hM : NumStr M) (hN : NumStr N) (hP : NumStr P)
    (hpre : PrePart pre pr) (hbd : BuildPart bd bdc) (htail : tail = [] ∨ tail = ['\n']) :
    SemanticVersion.parse (M ++ '.' :: (N ++ '.' :: (P ++ (pr ++ (bdc ++ tail))))) =
      some (mkVer M N P pre bd) := by
  have hdot : isDigitCh '.' = false := by decide
  have h1 : numberToken (M ++ '.' :: (N ++ '.' :: (P ++ (pr ++ (bdc ++ tail))))) =
      some (M, '.' :: (N ++ '.' :: (P ++ (pr ++ (bdc ++ tail))))) :=
    numberToken_complete hM (fun c hc => by
      simp only [List.head?_cons, Option.some.injEq] at hc; subst hc; exact hdot)
  have h2 : numberToken (N ++ '.' :: (P ++ (pr ++ (bdc ++ tail)))) =
      some (N, '.' :: (P ++ (pr ++ (bdc ++ tail)))) :=
    numberToken_complete hN (fun c hc => by
      simp only [List.head?_cons, Option.some.injEq] at hc; subst hc; exact hdot)
  have h3 : numberToken (P ++ (pr ++ (bdc ++ tail))) = some (P, pr ++ (bdc ++ tail)) :=
    numberToken_complete hP (prtail_head_not_digit hpre hbd htail)
  rw [SemanticVersion.parse.eq_def]
  simp only [h1, h2, h3]
  exact parseTail_complete hpre hbd htail

theorem mkVer_toStr {M N P : Chars} {pre bd : Option Chars} {pr bdc : Chars}
    (hM : NumStr M) (hN : NumStr N) (hP : NumStr P)
    (hMa : ∀ c ∈ M, isAsciiDigitCh c = true) (hNa : ∀ c ∈ N, isAsciiDigitCh c = true)
    (hPa : ∀ c ∈ P, isAsciiDigitCh c = true)
    (hpre : PrePart pre pr) (hbd : BuildPart bd bdc) :
    (mkVer M N P pre bd).toStr = M ++ '.' :: (N ++ '.' :: (P ++ (pr ++ bdc))) := by
  show natToChars (charsToNat M) ++ '.' :: natToChars (charsToNat N) ++ '.' ::
      natToChars (charsToNat P) ++ _ ++ _ = _
  rw [natToChars_charsToNat M (NumStr_ne_nil hM) hMa (NumStr_head_zero hM),
    natToChars_charsToNat N (NumStr_ne_nil hN) hNa (NumStr_head_zero hN),
    natToChars_charsToNat P (NumStr_ne_nil hP) hPa (NumStr_head_zero hP)]
  rcases hpre with ⟨hpn, hpr⟩ | ⟨q, _, hpeq, hpr⟩ <;>
    rcases hbd with ⟨hbn, hbc⟩ | ⟨q', _, hbeq, hbc⟩ <;>
      subst hpr <;> subst hbc <;> first
        | (subst hpn; subst hbn; simp [mkVer, List.append_assoc])
        | (subst hpn; subst hbeq; simp [mkVer, List.append_assoc])
        | (subst hpeq; subst hbn; simp [mkVer, List.append_assoc])
        | (subst hpeq; subst hbeq; simp [mkVer, List.append_assoc])

/-- C4 (amended): serializing a parsed version reproduces the accepted
string exactly on every accepted input whose Unicode digits are all ASCII,
except that an accepted single trailing newline (which the end anchor of the
regex tolerates) is not reproduced; numeric components written with
non-ASCII Unicode digits are re-rendered in ASCII by int() and the f-string,
so they are excluded by the hypothesis. -/
theorem toStr_parse_round_trip (s : Chars) (v : SemanticVersion)
    (h : SemanticVersion.parse s = some v)
    (hascii : ∀ c ∈ s, isDigitCh c = true → isAsciiDigitCh c = true) :
    v.toStr = s ∨ s = v.toStr ++ ['\n'] := by
  obtain ⟨M, N, P, pre, bd, pr, bdc, tail, hM, hN, hP, hv, hpre, hbd, htail, hs⟩ := parse_sound h
  subst hv
  have hMa : ∀ c ∈ M, isAsciiDigitCh c = true := fun c hc =>
    hascii c (by rw [hs]; simp [hc]) (NumStr_digits hM c hc)
  have hNa : ∀ c ∈ N, isAsciiDigitCh c = true := fun c hc =>
    hascii c (by rw [hs]; simp [hc]) (NumStr_digits hN c hc)
  have hPa : ∀ c ∈ P, isAsciiDigitCh c = true := fun c hc =>
    hascii c (by rw [hs]; simp [hc]) (NumStr_digits hP c hc)
  rw [mkVer_toStr hM hN hP hMa hNa hPa hpre hbd]
  rcases htail with ht | ht <;> subst ht
  · left
    rw [hs]
    simp
  · right
    rw [hs]
    simp [List.append_assoc]

/-- C4 witness: a concrete accepted string on which the round trip is
exact. -/
theorem toStr_parse_round_trip_witness :
    (⟨2, 0, 1, none, none⟩ : SemanticVersion).toStr = "2.0.1".data ∨
      "2.0.1".data = (⟨2, 0, 1, none, none⟩ : SemanticVersion).toStr ++ ['\n'] :=
  toStr_parse_round_trip "2.0.1".data ⟨2, 0, 1, none, none⟩ (by rfl) (by decide)

/-- C4 counterexample: the round trip as claimed fails on accepted inputs in
two ways: parse accepts a trailing newline but serialization drops it, and
parse accepts a numeric component written with a non-ASCII Unicode digit
(here an Arabic-Indic three) but int() and the f-string re-render it in
ASCII. -/
theorem round_trip_counterexample :
    (SemanticVersion.parse "1.2.3\n".data = some ⟨1, 2, 3, none, none⟩ ∧
      (⟨1, 2, 3, none, none⟩ : SemanticVersion).toStr ≠ "1.2.3\n".data) ∧
    (SemanticVersion.parse "1٣.2.3".data = some ⟨13, 2, 3, none, none⟩ ∧
      (⟨13, 2, 3, none, none⟩ : SemanticVersion).toStr = "13.2.3".data ∧
      (⟨13, 2, 3, none, none⟩ : SemanticVersion).toStr ≠ "1٣.2.3".data) := by
  refine ⟨⟨by rfl, by decide⟩, ⟨by rfl, by rfl, by decide⟩⟩

/-- C3 (amended): parse succeeds exactly on the strings of the semver core
grammar as the compiled patterns read it - the digit class is any Unicode
decimal digit, a numeric component is the literal 0 or an ASCII nonzero
digit followed by digits, prerelease identifiers may carry Unicode digits
only before their first letter or hyphen, build metadata is ASCII -
optionally followed by one trailing newline (the Python dollar anchor
matches just before a final newline); every other deviation fails. -/
theorem parse_iff_core_grammar (s : Chars) :
    (∃ v, SemanticVersion.parse s = some v) ↔
      (CoreMatch s ∨ ∃ t, CoreMatch t ∧ s = t ++ ['\n']) := by
  constructor
  · rintro ⟨v, h⟩
    obtain ⟨M, N, P, pre, bd, pr, bdc, tail, hM, hN, hP, hv, hpre, hbd, htail, hs⟩ :=
      parse_sound h
    have hprC : pr = [] ∨ ∃ q, PreSection q ∧ pr = '-' :: q := by
      rcases hpre with ⟨-, hpr⟩ | ⟨q, hq, -, hpr⟩
      · exact Or.inl hpr
      · exact Or.inr ⟨q, hq, hpr⟩
    have hbdC : bdc = [] ∨ ∃ q, BuildSection q ∧ bdc = '+' :: q := by
      rcases hbd with ⟨-, hbc⟩ | ⟨q, hq, -, hbc⟩
      · exact Or.inl hbc
      · exact Or.inr ⟨q, hq, hbc⟩
    rcases htail with ht | ht <;> subst ht
    · left
      exact ⟨M, N, P, pr, bdc, hM, hN, hP, hprC, hbdC, by rw [hs]; simp⟩
    · right
      refine ⟨M ++ '.' :: (N ++ '.' :: (P ++ (pr ++ bdc))), ⟨M, N, P, pr, bdc, hM, hN, hP,
        hprC, hbdC, rfl⟩, ?_⟩
      rw [hs]
      simp [List.append_assoc]
  · intro h
    have build : ∀ t : Chars, CoreMatch t → ∀ tail : Chars, tail = [] ∨ tail = ['\n'] →
        ∃ v, SemanticVersion.parse (t ++ tail) = some v := by
      rintro t ⟨M, N, P, pr, bdc, hM, hN, hP, hprC, hbdC, ht⟩ tail htail
      have hpre : ∃ pre, PrePart pre pr := by
        rcases hprC with hpr | ⟨q, hq, hpr⟩
        · exact ⟨none, Or.inl ⟨rfl, hpr⟩⟩
        · exact ⟨some q, Or.inr ⟨q, hq, rfl, hpr⟩⟩
      have hbd : ∃ bd, BuildPart bd bdc := by
        rcases hbdC with hbc | ⟨q, hq, hbc⟩
        · exact ⟨none, Or.inl ⟨rfl, hbc⟩⟩
        · exact ⟨some q, Or.inr ⟨q, hq, rfl, hbc⟩⟩
      obtain ⟨pre, hpre⟩ := hpre
      obtain ⟨bd, hbd⟩ := hbd
      refine ⟨mkVer M N P pre bd, ?_⟩
      have := parse_complete hM hN hP hpre hbd htail
      rw [← this]
      congr 1
      rw [ht]
      simp [List.append_assoc]
    rcases h with h | ⟨t, ht, hst⟩
    · have := build s h [] (Or.inl rfl)
      simpa using this
    · subst hst
      exact build t ht ['\n'] (Or.inr rfl)

/-- C3 counterexample: the claim says a trailing newline and anything beyond
the semver core grammar must be rejected, but parse accepts an input with
one trailing newline and an input whose minor component starts with a
non-ASCII Unicode decimal digit. -/
theorem parse_rejection_counterexample :
    SemanticVersion.parse "1.2.3\n".data = some ⟨1, 2, 3, none, none⟩ ∧
    SemanticVersion.parse "1٣.2.3".data = some ⟨13, 2, 3, none, none⟩ := by
  exact ⟨by rfl, by rfl⟩

/-- C1 (amended): bump updates the numeric components exactly as claimed and
never fails, but the prerelease and build-metadata fields are preserved
unchanged rather than dropped. -/
theorem bump_spec (v : SemanticVersion) :
    bump v .major = ⟨v.major + 1, 0, 0, v.prerelease, v.build_metadata⟩ ∧
      bump v .minor = ⟨v.major, v.minor + 1, 0, v.prerelease, v.build_metadata⟩ ∧
        bump v .patch = ⟨v.major, v.minor, v.patch + 1, v.prerelease, v.build_metadata⟩ :=
  ⟨rfl, rfl, rfl⟩

/-- C1 counterexample: at the example of the spec, a major bump keeps the
prerelease and build-metadata fields instead of dropping them. -/
theorem bump_counterexample :
    bump ⟨1, 2, 3, some "rc1".data, some "b1".data⟩ .major
        ≠ ⟨2, 0, 0, none, none⟩ ∧
      (bump ⟨1, 2, 3, some "rc1".data, some "b1".data⟩ .major).prerelease
        = some "rc1".data := by
  constructor
  · decide
  · rfl

/-- C2: with no tag at all (and hence no tag matching the current version),
`change_log` does not fall back to an undefined boundary with the whole
stream in scope: it fails, because `repo.tags.pop()` raises IndexError on an
empty list. -/
theorem change_log_empty_tags_fails :
    change_log [] [⟨"c1".data, "feat: x".data⟩] ⟨1, 2, 3, none, none⟩ = none := by
  rfl

/-! ## Lexicographic comparison lemmas -/

theorem strLe_refl : ∀ a : Chars, strLe a a = true := by
  intro a
  induction a with
  | nil => rfl
  | cons x xs ih => simp [strLe, ih]

theorem strLe_total (a b : Chars) : strLe a b = true ∨ strLe b a = true := by
  induction a generalizing b with
  | nil => left; rfl
  | cons x xs ih =>
    cases b with
    | nil => right; rfl
    | cons y ys =>
      by_cases hxy : x = y
      · subst hxy
        rcases ih ys with h | h
        · left; simp [strLe, h]
        · right; simp [strLe, h]
      · have hne : x.toNat ≠ y.toNat := fun hc => hxy (char_toNat_inj hc)
        by_cases hlt : x.toNat < y.toNat
        · left; simp [strLe, hxy, hlt]
        · right
          have hgt : y.toNat < x.toNat := by omega
          simp [strLe, Ne.symm hxy, hgt]

theorem strLe_trans {a b c : Chars} (h1 : strLe a b = true) (h2 : strLe b c = true) :
    strLe a c = true := by
  induction a generalizing b c with
  | nil => rfl
  | cons x xs ih =>
    cases b with
    | nil => simp [strLe] at h1
    | cons y ys =>
      cases c with
      | nil => simp [strLe] at h2
      | cons z zs =>
        by_cases hxy : x = y <;> by_cases hyz : y = z
        · subst hxy; subst hyz
          simp only [strLe, if_pos rfl] at h1 h2 ⊢
          exact ih h1 h2
        · subst hxy
          simp only [strLe, if_pos rfl] at h1
          simp only [strLe, hyz, if_false, decide_eq_true_eq] at h2
          simp [strLe, hyz, h2]
        · subst hyz
          simp only [strLe, hxy, if_false, decide_eq_true_eq] at h1
          simp [strLe, hxy, h1]
        · simp only [strLe, hxy, if_false, decide_eq_true_eq] at h1
          simp only [strLe, hyz, if_false, decide_eq_true_eq] at h2
          have hlt : x.toNat < z.toNat := by omega
          have hxz : x ≠ z := by
            intro hc
            subst hc
            omega
          simp [strLe, hxz, hlt]

theorem strLe_antisymm {a b : Chars} (h1 : strLe a b = true) (h2 : strLe b a = true) :
    a = b := by
  induction a generalizing b with
  | nil =>
    cases b with
    | nil => rfl
    | cons y ys => simp [strLe] at h2
  | cons x xs ih =>
    cases b with
    | nil => simp [strLe] at h1
    | cons y ys =>
      by_cases hxy : x = y
      · subst hxy
        simp only [strLe, if_pos rfl] at h1 h2
        rw [ih h1 h2]
      · simp only [strLe, hxy, if_false, decide_eq_true_eq] at h1
        simp only [strLe, Ne.symm hxy, if_false, decide_eq_true_eq] at h2
        omega

/-! ## Stable sort lemmas -/

theorem mem_orderedInsert {a x : ConventionalCommit} : ∀ {l : List ConventionalCommit},
    x ∈ orderedInsert a l ↔ x = a ∨ x ∈ l := by
  intro l
  induction l with
  | nil => simp [orderedInsert]
  | cons b t ih =>
    by_cases h : strLe a.type b.type = true
    · simp [orderedInsert, h]
    · have hres : orderedInsert a (b :: t) = b :: orderedInsert a t := by
        simp [orderedInsert, h]
      rw [hres]
      simp only [List.mem_cons, ih]
      tauto

theorem mem_sortByType {x : ConventionalCommit} : ∀ {l : List ConventionalCommit},
    x ∈ sortByType l ↔ x ∈ l := by
  intro l
  induction l with
  | nil => simp [sortByType]
  | cons a t ih => simp [sortByType, mem_orderedInsert, ih]

theorem pairwise_orderedInsert {a : ConventionalCommit} : ∀ {l : List ConventionalCommit},
    l.Pairwise (fun u v => strLe u.type v.type = true) →
    (orderedInsert a l).Pairwise (fun u v => strLe u.type v.type = true) := by
  intro l
  induction l with
  | nil => intro _; simp [orderedInsert]
  | cons b t ih =>
    intro hp
    rw [List.pairwise_cons] at hp
    obtain ⟨hb, ht⟩ := hp
    by_cases h : strLe a.type b.type = true
    · simp only [orderedInsert, h, if_true]
      rw [List.pairwise_cons]
      constructor
      · intro x hx
        rcases List.mem_cons.mp hx with hx | hx
        · subst hx; exact h
        · exact strLe_trans h (hb x hx)
      · rw [List.pairwise_cons]
        exact ⟨hb, ht⟩
    · have hres : orderedInsert a (b :: t) = b :: orderedInsert a t := by
        simp [orderedInsert, h]
      rw [hres, List.pairwise_cons]
      refine ⟨?_, ih ht⟩
      intro x hx
      rcases mem_orderedInsert.mp hx with hx | hx
      · rw [hx]
        rcases strLe_total a.type b.type with h2 | h2
        · exact absurd h2 h
        · exact h2
      · exact hb x hx

theorem pairwise_sortByType : ∀ l : List ConventionalCommit,
    (sortByType l).Pairwise (fun u v => strLe u.type v.type = true) := by
  intro l
  induction l with
  | nil => simp [sortByType]
  | cons a t ih => exact pairwise_orderedInsert ih

theorem filter_orderedInsert (k : Chars) (a : ConventionalCommit) :
    ∀ l : List ConventionalCommit,
    (orderedInsert a l).filter (fun x => decide (x.type = k)) =
      if a.type = k then a :: l.filter (fun x => decide (x.type = k))
      else l.filter (fun x => decide (x.type = k)) := by
  intro l
  induction l with
  | nil => by_cases h : a.type = k <;> simp [orderedInsert, h]
  | cons b t ih =>
    by_cases hab : strLe a.type b.type = true
    · simp only [orderedInsert, hab, if_true]
      by_cases ha : a.type = k <;> by_cases hb : b.type = k <;>
        simp [List.filter_cons, ha, hb]
    · have hres : orderedInsert a (b :: t) = b :: orderedInsert a t := by
        simp [orderedInsert, hab]
      rw [hres]
      by_cases hb : b.type = k
      · by_cases ha : a.type = k
        · exfalso
          apply hab
          rw [ha, hb]
          exact strLe_refl k
        · simp [List.filter_cons, hb, ih, ha]
      · by_cases ha : a.type = k <;> simp [List.filter_cons, hb, ih, ha]

theorem filter_sortByType (k : Chars) : ∀ l : List ConventionalCommit,
    (sortByType l).filter (fun x => decide (x.type = k)) =
      l.filter (fun x => decide (x.type = k)) := by
  intro l
  induction l with
  | nil => rfl
  | cons a t ih =>
    show (orderedInsert a (sortByType t)).filter _ = _
    rw [filter_orderedInsert]
    by_cases h : a.type = k <;> simp [List.filter_cons, h, ih]

/-! ## groupby lemmas -/

theorem groupby_ne_nil (a : ConventionalCommit) (t : List ConventionalCommit) :
    groupby (a :: t) ≠ [] := by
  show addToGroups a (groupby t) ≠ []
  cases groupby t with
  | nil => simp [addToGroups]
  | cons q r =>
    obtain ⟨k, g⟩ := q
    by_cases h : a.type = k <;> simp [addToGroups, h]

theorem groupby_head_key : ∀ {l : List ConventionalCommit} {k : Chars}
    {g : List ConventionalCommit} {r : List (Chars × List ConventionalCommit)},
    groupby l = (k, g) :: r → ∃ b t, l = b :: t ∧ b.type = k := by
  intro l k g r h
  cases l with
  | nil => simp [groupby] at h
  | cons a t =>
    refine ⟨a, t, rfl, ?_⟩
    rw [show groupby (a :: t) = addToGroups a (groupby t) from rfl] at h
    cases hgt : groupby t with
    | nil =>
      rw [hgt] at h
      simp only [addToGroups, List.cons.injEq, Prod.mk.injEq] at h
      exact h.1.1
    | cons q r' =>
      obtain ⟨k', g'⟩ := q
      rw [hgt] at h
      by_cases hak : a.type = k'
      · rw [show addToGroups a ((k', g') :: r') =
          if a.type = k' then (k', a :: g') :: r' else (a.type, [a]) :: (k', g') :: r'
          from rfl, if_pos hak] at h
        simp only [List.cons.injEq, Prod.mk.injEq] at h
        rw [hak, h.1.1]
      · rw [show addToGroups a ((k', g') :: r') =
          if a.type = k' then (k', a :: g') :: r' else (a.type, [a]) :: (k', g') :: r'
          from rfl, if_neg hak] at h
        simp only [List.cons.injEq, Prod.mk.injEq] at h
        exact h.1.1

theorem groupby_sorted_spec : ∀ l : List ConventionalCommit,
    l.Pairwise (fun u v => strLe u.type v.type = true) →
    (∀ p ∈ groupby l, p.2 ≠ [] ∧ p.2 = l.filter (fun x => decide (x.type = p.1))) ∧
    ((groupby l).map Prod.fst).Pairwise (fun u v => strLe u v = true ∧ u ≠ v) := by
  intro l
  induction l with
  | nil =>
    intro _
    exact ⟨fun p hp => absurd hp (by simp [groupby]), by simp [groupby]⟩
  | cons a t ih =>
    intro hp
    rw [List.pairwise_cons] at hp
    obtain ⟨ha, ht⟩ := hp
    obtain ⟨ihg, ihk⟩ := ih ht
    have hstep : groupby (a :: t) = addToGroups a (groupby t) := rfl
    cases hgt : groupby t with
    | nil =>
      have htnil : t = [] := by
        cases t with
        | nil => rfl
        | cons b t' => exact absurd hgt (groupby_ne_nil b t')
      subst htnil
      constructor
      · intro p hpm
        rw [hstep, hgt] at hpm
        simp only [addToGroups, List.mem_singleton] at hpm
        subst hpm
        refine ⟨by simp, ?_⟩
        simp [List.filter_cons]
      · rw [hstep, hgt]
        simp [addToGroups]
    | cons q r =>
      obtain ⟨k, g⟩ := q
      rw [hgt] at ihg ihk
      obtain ⟨b, t', hbt, hbk⟩ := groupby_head_key hgt
      have hab : strLe a.type k = true := by
        rw [← hbk]
        exact ha b (by rw [hbt]; simp)
      have ihk' : (k :: r.map Prod.fst).Pairwise (fun u v => strLe u v = true ∧ u ≠ v) := ihk
      rw [List.pairwise_cons] at ihk'
      have hkeys := ihk'.1
      have hite : addToGroups a ((k, g) :: r) =
          if a.type = k then (k, a :: g) :: r else (a.type, [a]) :: (k, g) :: r := rfl
      by_cases hak : a.type = k
      · have hres : groupby (a :: t) = (k, a :: g) :: r := by
          rw [hstep, hgt, hite, if_pos hak]
        rw [hres]
        constructor
        · intro p hpm
          rcases List.mem_cons.mp hpm with hpm | hpm
          · subst hpm
            have hg := (ihg (k, g) (by simp)).2
            refine ⟨by simp, ?_⟩
            show a :: g = (a :: t).filter (fun x => decide (x.type = k))
            rw [List.filter_cons, if_pos (by simp [hak])]
            rw [← hg]
          · have hpt := ihg p (List.mem_cons_of_mem _ hpm)
            refine ⟨hpt.1, ?_⟩
            rw [hpt.2]
            have hane : a.type ≠ p.1 := by
              have hp1 : p.1 ∈ r.map Prod.fst := List.mem_map_of_mem _ hpm
              rw [hak]
              exact (hkeys p.1 hp1).2
            show _ = (a :: t).filter (fun x => decide (x.type = p.1))
            rw [List.filter_cons, if_neg (by simp [hane])]
        · exact ihk
      · have hres : groupby (a :: t) = (a.type, [a]) :: (k, g) :: r := by
          rw [hstep, hgt, hite, if_neg hak]
        rw [hres]
        have hanot : ∀ x ∈ t, x.type ≠ a.type := by
          intro x hx hxa
          rw [hbt] at hx
          rcases List.mem_cons.mp hx with hx | hx
          · subst hx
            exact hak (by rw [← hxa, hbk])
          · have hbx : strLe b.type x.type = true := by
              rw [hbt] at ht
              rw [List.pairwise_cons] at ht
              exact ht.1 x hx
            have hax : strLe a.type b.type = true := ha b (by rw [hbt]; simp)
            have hba : strLe b.type a.type = true := by rw [← hxa]; exact hbx
            have heq : a.type = b.type := strLe_antisymm hax hba
            rw [heq, hbk] at hak
            exact hak rfl
        constructor
        · intro p hpm
          rcases List.mem_cons.mp hpm with hpm | hpm
          · subst hpm
            refine ⟨by simp, ?_⟩
            show [a] = (a :: t).filter (fun x => decide (x.type = a.type))
            rw [List.filter_cons, if_pos (by simp)]
            have hnil : t.filter (fun x => decide (x.type = a.type)) = [] := by
              rw [List.filter_eq_nil_iff]
              intro x hx
              simp [hanot x hx]
            rw [hnil]
          · have hpt := ihg p hpm
            refine ⟨hpt.1, ?_⟩
            rw [hpt.2]
            have hane : a.type ≠ p.1 := by
              have hp1 : p.1 ∈ (k :: r.map Prod.fst) := List.mem_map_of_mem _ hpm
              rcases List.mem_cons.mp hp1 with hp1 | hp1
              · rw [hp1]; exact hak
              · obtain ⟨hlt, hne⟩ := hkeys p.1 hp1
                intro hc
                rw [← hc] at hlt
                exact hak (strLe_antisymm hab hlt)
            show _ = (a :: t).filter (fun x => decide (x.type = p.1))
            rw [List.filter_cons, if_neg (by simp [hane])]
        · show (a.type :: (k :: r.map Prod.fst)).Pairwise _
          rw [List.pairwise_cons]
          refine ⟨?_, ihk⟩
          intro k2 hk2
          rcases List.mem_cons.mp hk2 with hk2 | hk2
          · subst hk2
            exact ⟨hab, hak⟩
          · obtain ⟨hlt, hne⟩ := hkeys k2 hk2
            refine ⟨strLe_trans hab hlt, ?_⟩
            intro hc
            rw [← hc] at hlt
            exact hak (strLe_antisymm hab hlt)

theorem mem_groupby_keys : ∀ (l : List ConventionalCommit) (k : Chars),
    k ∈ (groupby l).map Prod.fst ↔ ∃ x ∈ l, x.type = k := by
  intro l
  induction l with
  | nil => intro k; simp [groupby]
  | cons a t ih =>
    intro k
    have hstep : groupby (a :: t) = addToGroups a (groupby t) := rfl
    rw [hstep]
    cases hgt : groupby t with
    | nil =>
      have htnil : t = [] := by
        cases t with
        | nil => rfl
        | cons b t' => exact absurd hgt (groupby_ne_nil b t')
      subst htnil
      constructor
      · intro h
        simp [addToGroups] at h
        exact ⟨a, by simp, h.symm⟩
      · rintro ⟨x, hx, hxt⟩
        simp at hx
        subst hx
        simp [addToGroups, hxt.symm]
    | cons q r =>
      obtain ⟨k', g'⟩ := q
      rw [hgt] at ih
      have hite : addToGroups a ((k', g') :: r) =
          if a.type = k' then (k', a :: g') :: r else (a.type, [a]) :: (k', g') :: r := rfl
      rw [hite]
      by_cases hak : a.type = k'
      · rw [if_pos hak]
        obtain ⟨b, t', hbt, hbk⟩ := groupby_head_key hgt
        have hmap : ((k', a :: g') :: r).map Prod.fst = ((k', g') :: r).map Prod.fst := rfl
        rw [hmap, ih]
        constructor
        · rintro ⟨x, hx, hxt⟩
          exact ⟨x, List.mem_cons_of_mem _ hx, hxt⟩
        · rintro ⟨x, hx, hxt⟩
          rcases List.mem_cons.mp hx with hx | hx
          · subst hx
            exact ⟨b, by rw [hbt]; simp, by rw [hbk, ← hak, hxt]⟩
          · exact ⟨x, hx, hxt⟩
      · rw [if_neg hak]
        show k ∈ a.type :: ((k', g') :: r).map Prod.fst ↔ _
        rw [List.mem_cons, ih]
        constructor
        · rintro (h | ⟨x, hx, hxt⟩)
          · exact ⟨a, by simp, h.symm⟩
          · exact ⟨x, List.mem_cons_of_mem _ hx, hxt⟩
        · rintro ⟨x, hx, hxt⟩
          rcases List.mem_cons.mp hx with hx | hx
          · subst hx
            exact Or.inl hxt.symm
          · exact Or.inr ⟨x, hx, hxt⟩

/-! ## Description normalization lemmas -/

theorem stripCh_eq_comp (c : Char) :
    stripCh c = decide ((if c = '\n' then ' ' else c) = ' ') := by
  by_cases h1 : c = '\n'
  · simp [stripCh, h1]
  · by_cases h2 : c = ' '
    · simp [stripCh, h1, h2]
    · simp [stripCh, h1, h2]

theorem replace_strip_comm (d : Chars) :
    replaceNl (pyStrip stripCh d) =
      pyStrip (fun c => decide (c = ' ')) (replaceNl d) := by
  have hpred : (fun c => decide (c = ' ')) ∘ (fun c : Char => if c = '\n' then ' ' else c)
      = stripCh := by
    funext c
    exact (stripCh_eq_comp c).symm
  unfold pyStrip replaceNl
  rw [List.dropWhile_map, hpred, ← List.map_reverse, List.dropWhile_map, hpred,
    ← List.map_reverse]

/-! ## Theorems for the claims about classification, grouping and release -/

/-- C7: for every message the classifier accepts, the stored description is
the raw captured description with every newline replaced by a single space
and the surrounding whitespace (spaces and newlines) trimmed; in particular
the example of the spec holds. (Replacing all newlines by spaces and then
trimming spaces is the same normalization as the strip-then-replace of the
source, proved by `replace_strip_comm`.) -/
theorem description_normalized :
    (∀ m ty sc d, captureParts m = some (ty, sc, d) →
      ConventionalCommit.parse m =
        some ⟨ty, sc, pyStrip (fun c => decide (c = ' ')) (replaceNl d)⟩) ∧
    ConventionalCommit.parse "feat: line one\nline two".data =
      some ⟨"feat".data, [], "line one line two".data⟩ := by
  constructor
  · intro m ty sc d h
    unfold ConventionalCommit.parse
    rw [h]
    show some (ConventionalCommit.mk ty sc (replaceNl (pyStrip stripCh d))) = _
    rw [replace_strip_comm d]
  · rfl

/-- C8 (amended): rendering rebuilds `category(scope): description` with a
space after the colon and the parentheses added exactly when the captured
scope is non-empty; since the scope capture itself retains the parentheses
of the source message, a parenthesized scope is wrapped twice. -/
theorem toStr_rebuild :
    (∀ m c, ConventionalCommit.parse m = some c →
      ConventionalCommit.toStr c = c.type ++
        ((if c.scope = [] then [] else '(' :: (c.scope ++ [')'])) ++ ':' :: ' ' :: c.description)) ∧
    (ConventionalCommit.parse "feat(api): add endpoint".data).map ConventionalCommit.toStr =
      some "feat((api)): add endpoint".data := by
  constructor
  · intro m c _
    unfold ConventionalCommit.toStr
    by_cases h : c.scope = []
    · simp [h]
    · simp [h]
  · rfl

/-- C8 counterexample: the rendering of the classified example of the spec is
not the original message; the scope capture keeps its parentheses and the
renderer adds another pair. -/
theorem toStr_rebuild_counterexample :
    (ConventionalCommit.parse "feat(api): add endpoint".data).map ConventionalCommit.toStr =
        some "feat((api)): add endpoint".data ∧
      "feat((api)): add endpoint".data ≠ "feat(api): add endpoint".data := by
  constructor
  · rfl
  · decide

/-- C5: the boundary walk yields exactly the prefix of the stream strictly
before the first commit whose hexsha equals the boundary sha (commits at and
after the boundary are never reached), and the concrete example of the spec
holds. -/
theorem iter_commits_to_spec :
    (∀ (sha : Chars) (commits : List RawCommit),
      iter_commits_to sha commits = commits.takeWhile (fun c => decide (c.hexsha ≠ sha))) ∧
    iter_commits_to "c2".data
        [⟨"c5".data, "m5".data⟩, ⟨"c4".data, "m4".data⟩, ⟨"c3".data, "m3".data⟩,
          ⟨"c2".data, "m2".data⟩, ⟨"c1".data, "m1".data⟩] =
      [⟨"c5".data, "m5".data⟩, ⟨"c4".data, "m4".data⟩, ⟨"c3".data, "m3".data⟩] := by
  constructor
  · intro sha commits
    induction commits with
    | nil => rfl
    | cons c t ih =>
      by_cases hc : c.hexsha = sha
      · simp [iter_commits_to, hc, List.takeWhile_cons]
      · simp [iter_commits_to, hc, List.takeWhile_cons, ih]
  · rfl

/-- C6: grouping the classified commits yields one group per category that
has a matching commit (a group is never empty and holds exactly the matching
commits in stream order), the group keys are strictly ascending in the
lexicographic order, a category appears exactly when some commit has it, and
the concrete example of the spec holds. -/
theorem change_log_grouping :
    (∀ ccs : List ConventionalCommit,
      (∀ p ∈ groupby (sortByType ccs), p.2 ≠ [] ∧
        p.2 = ccs.filter (fun x => decide (x.type = p.1))) ∧
      ((groupby (sortByType ccs)).map Prod.fst).Pairwise
        (fun u v => strLe u v = true ∧ u ≠ v) ∧
      (∀ k, k ∈ (groupby (sortByType ccs)).map Prod.fst ↔ ∃ x ∈ ccs, x.type = k)) ∧
    groupby (sortByType
        [⟨"fix".data, [], "one".data⟩, ⟨"feat".data, [], "two".data⟩,
          ⟨"fix".data, [], "three".data⟩, ⟨"build".data, [], "four".data⟩]) =
      [("build".data, [⟨"build".data, [], "four".data⟩]),
        ("feat".data, [⟨"feat".data, [], "two".data⟩]),
        ("fix".data, [⟨"fix".data, [], "one".data⟩, ⟨"fix".data, [], "three".data⟩])] := by
  constructor
  · intro ccs
    obtain ⟨hg, hk⟩ := groupby_sorted_spec (sortByType ccs) (pairwise_sortByType ccs)
    refine ⟨?_, hk, ?_⟩
    · intro p hp
      obtain ⟨h1, h2⟩ := hg p hp
      rw [filter_sortByType] at h2
      exact ⟨h1, h2⟩
    · intro k
      rw [mem_groupby_keys]
      constructor
      · rintro ⟨x, hx, hxt⟩
        exact ⟨x, mem_sortByType.mp hx, hxt⟩
      · rintro ⟨x, hx, hxt⟩
        exact ⟨x, mem_sortByType.mpr hx, hxt⟩
  · rfl

/-- C10: within each group of the changelog, the classified commits keep the
relative order they have in the input commit stream: each group is exactly a
filter of the classification of the stream, and filtering preserves order
(the category sort of the source is stable). -/
theorem group_order_stable (commits : List RawCommit) (k : Chars)
    (g : List ConventionalCommit) (h : (k, g) ∈ buildGroups commits) :
    g = (commits.filterMap (fun c => ConventionalCommit.parse c.message)).filter
      (fun x => decide (x.type = k)) := by
  unfold buildGroups at h
  have hspec := (groupby_sorted_spec _ (pairwise_sortByType _)).1 (k, g) h
  have h2 := hspec.2
  rw [filter_sortByType] at h2
  exact h2

/-- C10 witness: a concrete stream with two fix commits; the fix group keeps
them in stream order. -/
theorem group_order_stable_witness :
    ([⟨"fix".data, [], "one".data⟩, ⟨"fix".data, [], "three".data⟩] :
        List ConventionalCommit) =
      (([⟨"c9".data, "fix: one".data⟩, ⟨"c8".data, "feat: two".data⟩,
            ⟨"c7".data, "fix: three".data⟩] : List RawCommit).filterMap
          (fun c => ConventionalCommit.parse c.message)).filter
        (fun x => decide (x.type = "fix".data)) :=
  group_order_stable
    [⟨"c9".data, "fix: one".data⟩, ⟨"c8".data, "feat: two".data⟩,
      ⟨"c7".data, "fix: three".data⟩]
    "fix".data
    [⟨"fix".data, [], "one".data⟩, ⟨"fix".data, [], "three".data⟩]
    (by decide)

/-- C9: the release computation resolves the changelog boundary against the
pre-bump version string, bumps the version afterwards, and renders the
document with the bumped version over the changelog built from the pre-bump
boundary. -/
theorem release_order (versionText : Chars) (rt : ReleaseType) (tags : List Tag)
    (commits : List RawCommit) (cur : SemanticVersion)
    (hparse : SemanticVersion.parse versionText = some cur) :
    (release versionText rt tags commits =
      Option.map (fun raw => (bump cur rt, render_basic (bump cur rt) raw))
        (change_log tags commits cur)) ∧
    (∀ tg, find_tag_by_name tags cur.toStr = some tg →
      release versionText rt tags commits =
        some (bump cur rt,
          render_basic (bump cur rt) (buildGroups (iter_commits_to tg.sha commits)))) := by
  constructor
  · cases hcl : change_log tags commits cur with
    | none =>
      simp only [release, hparse, hcl]
      rfl
    | some raw =>
      simp only [release, hparse, hcl]
      rfl
  · intro tg hfind
    simp only [release, hparse, change_log, hfind]

/-- C9 witness: a concrete release run; the tag is looked up under the
pre-bump version string and the document is rendered with the bumped
version. -/
theorem release_order_witness :
    release "1.2.3".data .minor [⟨"1.2.3".data, "c2".data⟩]
        [⟨"c5".data, "feat: x".data⟩, ⟨"c2".data, "fix: y".data⟩] =
      some (bump ⟨1, 2, 3, none, none⟩ .minor,
        render_basic (bump ⟨1, 2, 3, none, none⟩ .minor)
          (buildGroups (iter_commits_to (Tag.mk "1.2.3".data "c2".data).sha
            [⟨"c5".data, "feat: x".data⟩, ⟨"c2".data, "fix: y".data⟩]))) :=
  (release_order "1.2.3".data .minor [⟨"1.2.3".data, "c2".data⟩]
    [⟨"c5".data, "feat: x".data⟩, ⟨"c2".data, "fix: y".data⟩]
    ⟨1, 2, 3, none, none⟩ (by rfl)).2 ⟨"1.2.3".data, "c2".data⟩ (by rfl)

end Releaser
